import Mathlib

/-!
Shallow embedding of `src/riscv/parser.rs` (the RISC-V assembly front end
of the powdr repository): the statement/argument data model and the
analyses `extract_label_references`, `extract_data_objects` and
`unescape_string`, together with theorems about them.

Modelling conventions:
* Rust `u8` values are `Nat` below 256, and `u8` arithmetic wraps
  (`% 256`), the release-profile semantics of the source.
* The cast `i64 as u32` keeps the low 32 bits (Euclidean remainder
  `% 2 ^ 32`, then `Int.toNat`).
* Rust panics (`unwrap`, `assert!`, `todo!`, `panic!`) are modelled as
  `Option.none` respectively `Except.error`.
* `BTreeMap<String, _>` / `BTreeSet<&str>` are modelled as association
  lists / lists kept sorted by key. The order `<` on Lean `String`
  (lexicographic on scalar values) agrees with Rust's byte-wise order on
  the UTF-8 encoding, because UTF-8 preserves scalar-value order.
-/

namespace RiscvParser

/-- Constants appearing in assembly arguments (`enum Constant`). -/
inductive Constant where
  | Number (n : Int)
  | HiDataRef (sym : String)
  | LoDataRef (sym : String)
deriving DecidableEq

/-- Instruction and directive arguments (`enum Argument`). -/
inductive Argument where
  | Register (r : Nat)
  | RegOffset (r : Nat) (c : Constant)
  | StringLiteral (lit : List Nat)
  | Constant (c : Constant)
  | Symbol (s : String)
  | Difference (left right : String)
deriving DecidableEq

/-- Assembly statements (`enum Statement`). -/
inductive Statement where
  | Label (l : String)
  | Directive (d : String) (args : List Argument)
  | Instruction (i : String) (args : List Argument)
deriving DecidableEq

/-! ## Reference extraction (`extract_label_references`, lines 111–128) -/

/-- Names contributed by one constant inside an instruction argument. -/
def constRefs : Constant → List String
  | .Number _ => []
  | .HiDataRef s => [s]
  | .LoDataRef s => [s]

/-- Names contributed by one instruction argument; `none` models the
`todo!()` panic on a `Difference` argument (line 123). -/
def argRefs : Argument → Option (List String)
  | .Register _ => some []
  | .StringLiteral _ => some []
  | .Symbol s => some [s]
  | .RegOffset _ c => some (constRefs c)
  | .Constant c => some (constRefs c)
  | .Difference _ _ => none

/-- Names contributed by an instruction's argument list, in order; the
panic on any argument aborts the whole traversal. -/
def argsRefs : List Argument → Option (List String)
  | [] => some []
  | a :: rest =>
    match argRefs a with
    | none => none
    | some r =>
      match argsRefs rest with
      | none => none
      | some rs => some (r ++ rs)

/-- Names contributed by one statement: labels and directives contribute
nothing, instructions are traversed argument by argument. -/
def stmtRefs : Statement → Option (List String)
  | .Label _ => some []
  | .Directive _ _ => some []
  | .Instruction _ args => argsRefs args

/-- Names contributed by a statement sequence, in order; a panic anywhere
aborts the whole traversal. -/
def allRefs : List Statement → Option (List String)
  | [] => some []
  | s :: rest =>
    match stmtRefs s with
    | none => none
    | some r =>
      match allRefs rest with
      | none => none
      | some rs => some (r ++ rs)

/-- Lexicographic strict order on character lists, comparing scalar
values — the order underlying Rust's `Ord` on `String` (byte-wise on the
UTF-8 encoding, which coincides with scalar-value order). -/
def charsLt : List Char → List Char → Bool
  | _, [] => false
  | [], _ :: _ => true
  | a :: as, b :: bs =>
    if a.toNat < b.toNat then true
    else if b.toNat < a.toNat then false
    else charsLt as bs

/-- Strict order on strings, the model of Rust's `Ord` on `String`. -/
def strLt (a b : String) : Bool := charsLt a.toList b.toList

/-- Insertion into a sorted duplicate-free list of names — the model of
`BTreeSet::insert`. -/
def setInsert (s : String) : List String → List String
  | [] => [s]
  | t :: rest =>
    if strLt s t then s :: t :: rest
    else if strLt t s then t :: setInsert s rest
    else t :: rest

/-- `extract_label_references`: the sorted set of symbol names referenced
by instruction arguments; `none` models the panic on `Difference`. -/
def extract_label_references (stmts : List Statement) : Option (List String) :=
  (allRefs stmts).map (fun names => names.foldl (fun acc s => setInsert s acc) [])

/-! ## Data object extraction (`extract_data_objects`, lines 130–191) -/

/-- Error outcomes of `extract_data_objects`; each constructor corresponds
to one panic site in the source. -/
inductive ObjError where
  /-- `current_label.unwrap()` with no label seen yet (lines 146, 155). -/
  | noCurrentLabel
  /-- `assert!(entry.is_none())` on a second `.word` (line 156). -/
  | duplicateWord
  /-- finalization panic naming the announced-but-unfilled object (line 187). -/
  | missingData (name : String)
deriving DecidableEq

/-- The `BTreeMap<String, Option<Vec<u8>>>` of the fold, as an association
list sorted by key. -/
abbrev ObjMap := List (String × Option (List Nat))

/-- Lookup in the object map (`BTreeMap::get_mut`, success part). -/
def lookupObj (k : String) : ObjMap → Option (Option (List Nat))
  | [] => none
  | (k1, v1) :: rest => if k = k1 then some v1 else lookupObj k rest

/-- `BTreeMap::insert`: place the binding at its sorted position,
replacing the stored value if the key is already present. -/
def mapInsert (k : String) (v : Option (List Nat)) : ObjMap → ObjMap
  | [] => [(k, v)]
  | (k1, v1) :: rest =>
    if strLt k k1 then (k, v) :: (k1, v1) :: rest
    else if strLt k1 k then (k1, v1) :: mapInsert k v rest
    else (k, v) :: rest

/-- Overwrite the value stored at an existing key (a write through
`get_mut`); leaves the map unchanged if the key is absent. -/
def mapSet (k : String) (v : Option (List Nat)) : ObjMap → ObjMap
  | [] => []
  | (k1, v1) :: rest =>
    if k = k1 then (k1, v) :: rest else (k1, v1) :: mapSet k v rest

/-- The fold state of `extract_data_objects`: the most recent label and
the object map. -/
structure ObjState where
  current_label : Option String
  objects : ObjMap
deriving DecidableEq

/-- The four bytes contributed by one `.word` argument (lines 158–172): a
numeric constant is cast `as u32` (low 32 bits) and split little-endian by
shift and mask; every other argument form contributes four zero bytes. -/
def encodeWordArg : Argument → List Nat
  | .Constant (.Number n) =>
    let m := (n % (2 ^ 32 : Int)).toNat
    [m &&& 0xff, (m >>> 8) &&& 0xff, (m >>> 16) &&& 0xff, (m >>> 24) &&& 0xff]
  | _ => [0, 0, 0, 0]

/-- One step of the fold inside `extract_data_objects` (lines 133–180).
The Rust `match` on `(dir.as_str(), &args[..])` is rendered as a chain of
tests on the directive name; a named arm whose argument pattern (or the
`@object` guard) does not apply falls through to the catch-all `{}`, just
as in the source, because no two named arms share a directive name. -/
def stepStmt (st : ObjState) : Statement → Except ObjError ObjState
  | .Label l => .ok { st with current_label := some l }
  | .Instruction _ _ => .ok st
  | .Directive dir args =>
    if dir = ".type" then
      match args with
      | [.Symbol name, .Symbol kind] =>
        if kind = "@object" then
          .ok { st with objects := mapInsert name none st.objects }
        else .ok st
      | _ => .ok st
    else if dir = ".ascii" ∨ dir = ".asciz" then
      match args with
      | [.StringLiteral data] =>
        match st.current_label with
        | none => .error .noCurrentLabel
        | some l =>
          match lookupObj l st.objects with
          | none => .ok st
          | some none => .ok { st with objects := mapSet l (some data) st.objects }
          | some (some d) =>
            .ok { st with objects := mapSet l (some (d ++ data)) st.objects }
      | _ => .ok st
    else if dir = ".word" then
      match st.current_label with
      | none => .error .noCurrentLabel
      | some l =>
        match lookupObj l st.objects with
        | none => .ok st
        | some (some _) => .error .duplicateWord
        | some none =>
          .ok { st with
                objects := mapSet l (some (args.flatMap encodeWordArg)) st.objects }
    else .ok st

/-- The left-to-right fold over the statement sequence. -/
def foldStmts (st : ObjState) : List Statement → Except ObjError ObjState
  | [] => .ok st
  | s :: rest =>
    match stepStmt st s with
    | .error e => .error e
    | .ok st1 => foldStmts st1 rest

/-- Finalization (lines 182–190): walk the map in key order; the first
object still lacking content raises the panic naming it. -/
def finalizeObjects : ObjMap → Except ObjError (List (String × List Nat))
  | [] => .ok []
  | (k, none) :: _ => .error (.missingData k)
  | (k, some bs) :: rest => (finalizeObjects rest).map (fun l => (k, bs) :: l)

/-- `extract_data_objects`: fold from the empty state, then finalize. -/
def extract_data_objects (stmts : List Statement) :
    Except ObjError (List (String × List Nat)) :=
  match foldStmts { current_label := none, objects := [] } stmts with
  | .error e => .error e
  | .ok st => finalizeObjects st.objects

/-! ## String unescaping (`unescape_string`, lines 193–224) -/

/-- A `char` cast `as u8`: the scalar value truncated to the low byte. -/
def toU8 (c : Char) : Nat := c.toNat % 256

/-- Wrapping `u8` subtraction (for operands below 256). -/
def subU8 (a b : Nat) : Nat := (a + 256 - b) % 256

/-- Wrapping `u8` addition. -/
def addU8 (a b : Nat) : Nat := (a + b) % 256

/-- Wrapping `u8` multiplication. -/
def mulU8 (a b : Nat) : Nat := a * b % 256

/-- The byte produced by a non-octal, non-`x` escape (lines 210–217): the
named control characters, every other character cast `as u8`. -/
def escByte (c : Char) : Nat :=
  if c = 'n' then 10
  else if c = 'r' then 13
  else if c = 't' then 9
  else if c = 'b' then 8
  else if c = 'f' then 12
  else toU8 c

/-- The scanning loop of `unescape_string` (lines 198–222) over the
characters between the quotes. `none` models the `unwrap` panics on a
truncated escape and the `todo!()` on `\x`. The octal arm computes
`nnn + nn * 8 + n * 64` in wrapping `u8` arithmetic on the digit offsets
`char as u8 - b'0'`. -/
def unescapeChars : List Char → Option (List Nat)
  | [] => some []
  | c :: cs =>
    if c = '\\' then
      match cs with
      | [] => none
      | next :: cs1 =>
        if next.isDigit then
          match cs1 with
          | c2 :: c3 :: cs2 =>
            let n := subU8 (toU8 next) 48
            let nn := subU8 (toU8 c2) 48
            let nnn := subU8 (toU8 c3) 48
            (unescapeChars cs2).map
              (fun r => addU8 (addU8 nnn (mulU8 nn 8)) (mulU8 n 64) :: r)
          | _ => none
        else if next = 'x' then none
        else (unescapeChars cs1).map (fun r => escByte next :: r)
    else
      (unescapeChars cs).map (fun r => toU8 c :: r)

/-- `unescape_string`: assert the surrounding double quotes and a length
of at least two, then scan the interior. -/
def unescape_string (s : String) : Option (List Nat) :=
  let cs := s.toList
  if 2 ≤ cs.length ∧ cs.head? = some '"' ∧ cs.getLast? = some '"' then
    unescapeChars (cs.drop 1).dropLast
  else none

/-! ## Definitions used to state the claims -/

/-- The directive `.type NAME, @object` announcing a data object. -/
def objectTypeDir (name : String) : Statement :=
  .Directive ".type" [.Symbol name, .Symbol "@object"]

/-- Specification-side rule for which name a constant references. -/
def constMentions (name : String) : Constant → Prop
  | .Number _ => False
  | .HiDataRef s => name = s
  | .LoDataRef s => name = s

/-- Specification-side per-argument traversal rule of the reference
extractor: `Register`/`StringLiteral` contribute nothing; `Symbol`
contributes its name; `RegOffset`/`Constant` contribute a name exactly
when the constant is `HiDataRef`/`LoDataRef`. -/
def argMentions (name : String) : Argument → Prop
  | .Register _ => False
  | .StringLiteral _ => False
  | .Symbol s => name = s
  | .RegOffset _ c => constMentions name c
  | .Constant c => constMentions name c
  | .Difference _ _ => False

/-- An octal digit character, `'0'` through `'7'`. -/
def isOctal (c : Char) : Prop := 48 ≤ c.toNat ∧ c.toNat ≤ 55

/-- Specification-side word encoding: the four little-endian base-256
digits of the argument's number truncated to 32 bits; any non-`Number`
argument encodes as four zero bytes. -/
def wordBytesSpec : Argument → List Nat
  | .Constant (.Number n) =>
    let m := (n % (2 ^ 32 : Int)).toNat
    [m % 256, m / 2 ^ 8 % 256, m / 2 ^ 16 % 256, m / 2 ^ 24 % 256]
  | _ => [0, 0, 0, 0]

/-- A directive form that writes object content: `.word` with any
argument list, or `.ascii`/`.asciz` with a single string literal. -/
def writesData : Statement → Prop
  | .Directive dir args =>
    dir = ".word" ∨
      ((dir = ".ascii" ∨ dir = ".asciz") ∧ ∃ bs, args = [.StringLiteral bs])
  | _ => False

/-- Statements that are labels. -/
def isLabel : Statement → Prop
  | .Label _ => True
  | _ => False

/-! ## Order lemmas for the string comparison -/

theorem char_toNat_inj {a b : Char} (h : a.toNat = b.toNat) : a = b :=
  Char.ext (UInt32.toNat.inj h)

theorem charsLt_cons_iff {x y : Char} {xs ys : List Char} :
    charsLt (x :: xs) (y :: ys) = true ↔
      x.toNat < y.toNat ∨ (x.toNat = y.toNat ∧ charsLt xs ys = true) := by
  simp only [charsLt]
  split_ifs with h1 h2
  · simp only [true_iff]
    exact Or.inl h1
  · simp only [false_iff]
    rintro (h | ⟨h, _⟩) <;> omega
  · constructor
    · intro h
      exact Or.inr ⟨by omega, h⟩
    · rintro (h | ⟨_, h⟩)
      · omega
      · exact h

theorem charsLt_cons_false_iff {x y : Char} {xs ys : List Char} :
    charsLt (x :: xs) (y :: ys) = false ↔
      y.toNat < x.toNat ∨ (x.toNat = y.toNat ∧ charsLt xs ys = false) := by
  simp only [charsLt]
  split_ifs with h1 h2
  · simp only [false_iff]
    rintro (h | ⟨h, _⟩) <;> omega
  · simp only [true_iff]
    exact Or.inl h2
  · constructor
    · intro h
      exact Or.inr ⟨by omega, h⟩
    · rintro (h | ⟨_, h⟩)
      · omega
      · exact h

theorem charsLt_irrefl : ∀ l : List Char, charsLt l l = false
  | [] => rfl
  | a :: as => by
    rw [charsLt_cons_false_iff]
    exact Or.inr ⟨rfl, charsLt_irrefl as⟩

theorem charsLt_trans {a b c : List Char} (h1 : charsLt a b = true)
    (h2 : charsLt b c = true) : charsLt a c = true := by
  induction a generalizing b c with
  | nil =>
    cases b with
    | nil => exact absurd h1 (by simp [charsLt])
    | cons y ys =>
      cases c with
      | nil => exact absurd h2 (by simp [charsLt])
      | cons z zs => rfl
  | cons x xs ih =>
    cases b with
    | nil => exact absurd h1 (by simp [charsLt])
    | cons y ys =>
      cases c with
      | nil => exact absurd h2 (by simp [charsLt])
      | cons z zs =>
        rw [charsLt_cons_iff] at h1 h2 ⊢
        rcases h1 with h1 | ⟨e1, h1⟩
        · rcases h2 with h2 | ⟨e2, h2⟩
          · exact Or.inl (by omega)
          · exact Or.inl (by omega)
        · rcases h2 with h2 | ⟨e2, h2⟩
          · exact Or.inl (by omega)
          · exact Or.inr ⟨by omega, ih h1 h2⟩

theorem charsLt_eq_of_not {a b : List Char} (h1 : charsLt a b = false)
    (h2 : charsLt b a = false) : a = b := by
  induction a generalizing b with
  | nil =>
    cases b with
    | nil => rfl
    | cons y ys => exact absurd h1 (by simp [charsLt])
  | cons x xs ih =>
    cases b with
    | nil => exact absurd h2 (by simp [charsLt])
    | cons y ys =>
      rw [charsLt_cons_false_iff] at h1 h2
      rcases h1 with h1 | ⟨e1, h1⟩
      · rcases h2 with h2 | ⟨e2, h2⟩
        · omega
        · omega
      · rcases h2 with h2 | ⟨e2, h2⟩
        · omega
        · exact congrArg₂ List.cons (char_toNat_inj e1) (ih h1 h2)

theorem strLt_irrefl (s : String) : strLt s s = false :=
  charsLt_irrefl s.toList

theorem strLt_trans {a b c : String} (h1 : strLt a b = true)
    (h2 : strLt b c = true) : strLt a c = true :=
  charsLt_trans h1 h2

theorem strLt_eq_of_not {a b : String} (h1 : strLt a b = false)
    (h2 : strLt b a = false) : a = b :=
  String.toList_inj.mp (charsLt_eq_of_not h1 h2)

theorem strLt_ne {a b : String} (h : strLt a b = true) : a ≠ b := by
  rintro rfl
  rw [strLt_irrefl] at h
  exact Bool.false_ne_true h

/-! ## Reference-set lemmas -/

theorem mem_setInsert {a s : String} : ∀ {l : List String},
    a ∈ setInsert s l ↔ a = s ∨ a ∈ l
  | [] => by simp [setInsert]
  | t :: rest => by
    simp only [setInsert]
    split_ifs with h1 h2
    · simp only [List.mem_cons]
    · rw [List.mem_cons, List.mem_cons, mem_setInsert]
      tauto
    · have ht : s = t := strLt_eq_of_not (Bool.of_not_eq_true h1) (Bool.of_not_eq_true h2)
      subst ht
      simp only [List.mem_cons]
      tauto

theorem mem_foldl_setInsert {a : String} : ∀ {names acc : List String},
    a ∈ names.foldl (fun ac s => setInsert s ac) acc ↔ a ∈ names ∨ a ∈ acc
  | [], acc => by simp
  | n :: ns, acc => by
    simp only [List.foldl_cons, List.mem_cons]
    rw [mem_foldl_setInsert, mem_setInsert]
    tauto

theorem argRefs_mem {arg : Argument} {r : List String} (h : argRefs arg = some r)
    {name : String} : name ∈ r ↔ argMentions name arg := by
  cases arg with
  | Register n => simp [argRefs] at h; subst h; simp [argMentions]
  | StringLiteral l => simp [argRefs] at h; subst h; simp [argMentions]
  | Symbol s => simp [argRefs] at h; subst h; simp [argMentions, eq_comm]
  | RegOffset n c =>
    simp [argRefs] at h; subst h
    cases c <;> simp [constRefs, argMentions, constMentions, eq_comm]
  | Constant c =>
    simp [argRefs] at h; subst h
    cases c <;> simp [constRefs, argMentions, constMentions, eq_comm]
  | Difference x y => simp [argRefs] at h

theorem argsRefs_mem {args : List Argument} {r : List String}
    (h : argsRefs args = some r) {name : String} :
    name ∈ r ↔ ∃ arg ∈ args, argMentions name arg := by
  induction args generalizing r with
  | nil =>
    simp [argsRefs] at h; subst h; simp
  | cons a rest ih =>
    rw [argsRefs] at h
    cases ha : argRefs a with
    | none => rw [ha] at h; exact absurd h (by simp)
    | some ra =>
      rw [ha] at h
      cases hb : argsRefs rest with
      | none => rw [hb] at h; exact absurd h (by simp)
      | some rb =>
        rw [hb] at h
        cases h
        rw [List.mem_append, argRefs_mem ha, ih hb]
        simp

theorem stmtRefs_mem {s : Statement} {r : List String} (h : stmtRefs s = some r)
    {name : String} :
    name ∈ r ↔ ∃ i args, s = Statement.Instruction i args ∧
      ∃ arg ∈ args, argMentions name arg := by
  cases s with
  | Label l => simp [stmtRefs] at h; subst h; simp
  | Directive d args => simp [stmtRefs] at h; subst h; simp
  | Instruction i args =>
    simp only [stmtRefs] at h
    rw [argsRefs_mem h]
    constructor
    · intro hx
      exact ⟨i, args, rfl, hx⟩
    · rintro ⟨i1, args1, heq, hx⟩
      cases heq
      exact hx

theorem allRefs_mem {stmts : List Statement} {r : List String}
    (h : allRefs stmts = some r) {name : String} :
    name ∈ r ↔ ∃ i args, Statement.Instruction i args ∈ stmts ∧
      ∃ arg ∈ args, argMentions name arg := by
  induction stmts generalizing r with
  | nil =>
    simp [allRefs] at h; subst h; simp
  | cons s rest ih =>
    rw [allRefs] at h
    rcases ha : stmtRefs s with _ | ra
    · rw [ha] at h; exact absurd h (by simp)
    rw [ha] at h
    rcases hb : allRefs rest with _ | rb
    · rw [hb] at h; exact absurd h (by simp)
    rw [hb] at h
    cases h
    rw [List.mem_append, stmtRefs_mem ha, ih hb]
    constructor
    · rintro (⟨i, args, rfl, hx⟩ | ⟨i, args, hmem, hx⟩)
      · exact ⟨i, args, List.mem_cons_self _ _, hx⟩
      · exact ⟨i, args, List.mem_cons_of_mem _ hmem, hx⟩
    · rintro ⟨i, args, hmem, hx⟩
      rcases List.mem_cons.mp hmem with heq | hmem
      · exact Or.inl ⟨i, args, heq.symm, hx⟩
      · exact Or.inr ⟨i, args, hmem, hx⟩

theorem extract_label_references_mem {stmts : List Statement} {l : List String}
    (h : extract_label_references stmts = some l) {name : String} :
    name ∈ l ↔ ∃ i args, Statement.Instruction i args ∈ stmts ∧
      ∃ arg ∈ args, argMentions name arg := by
  simp only [extract_label_references, Option.map_eq_some'] at h
  rcases h with ⟨names, hn, rfl⟩
  rw [mem_foldl_setInsert]
  simp only [List.not_mem_nil, or_false]
  exact allRefs_mem hn

theorem argsRefs_eq_none {args : List Argument} {l r : String}
    (h : Argument.Difference l r ∈ args) : argsRefs args = none := by
  induction args with
  | nil => cases h
  | cons a rest ih =>
    rcases List.mem_cons.mp h with rfl | h
    · simp [argsRefs, argRefs]
    · rw [argsRefs, ih h]
      cases argRefs a <;> rfl

theorem allRefs_eq_none {stmts : List Statement} {i : String}
    {args : List Argument} {l r : String}
    (hs : Statement.Instruction i args ∈ stmts)
    (ha : Argument.Difference l r ∈ args) : allRefs stmts = none := by
  induction stmts with
  | nil => cases hs
  | cons s rest ih =>
    rcases List.mem_cons.mp hs with rfl | hs
    · rw [allRefs, stmtRefs, argsRefs_eq_none ha]
    · rw [allRefs, ih hs]
      cases stmtRefs s <;> rfl

/-! ## Object-map lemmas -/

theorem lookup_mapInsert_self (k : String) (v : Option (List Nat)) :
    ∀ m : ObjMap, lookupObj k (mapInsert k v m) = some v
  | [] => by simp [mapInsert, lookupObj]
  | (k1, v1) :: rest => by
    simp only [mapInsert]
    split_ifs with h1 h2
    · simp [lookupObj]
    · have hne : k ≠ k1 := (strLt_ne h2).symm
      simp [lookupObj, hne, lookup_mapInsert_self k v rest]
    · simp [lookupObj]

theorem mem_mapInsert {x : String × Option (List Nat)} {k : String}
    {v : Option (List Nat)} : ∀ {m : ObjMap},
    x ∈ mapInsert k v m → x = (k, v) ∨ x ∈ m
  | [], h => by simpa [mapInsert] using h
  | (k1, v1) :: rest, h => by
    simp only [mapInsert] at h
    split_ifs at h with h1 h2
    · exact List.mem_cons.mp h
    · rcases List.mem_cons.mp h with h | h
      · exact Or.inr (List.mem_cons.mpr (Or.inl h))
      · rcases mem_mapInsert h with h | h
        · exact Or.inl h
        · exact Or.inr (List.mem_cons.mpr (Or.inr h))
    · rcases List.mem_cons.mp h with h | h
      · exact Or.inl h
      · exact Or.inr (List.mem_cons.mpr (Or.inr h))

theorem pairwise_mapInsert {k : String} {v : Option (List Nat)} :
    ∀ {m : ObjMap}, m.Pairwise (fun a b => strLt a.1 b.1 = true) →
      (mapInsert k v m).Pairwise (fun a b => strLt a.1 b.1 = true)
  | [], _ => by simp [mapInsert]
  | (k1, v1) :: rest, hp => by
    rcases List.pairwise_cons.mp hp with ⟨h1, h2⟩
    simp only [mapInsert]
    split_ifs with ha hb
    · refine List.pairwise_cons.mpr ⟨?_, hp⟩
      intro y hy
      rcases List.mem_cons.mp hy with rfl | hy
      · exact ha
      · exact strLt_trans ha (h1 y hy)
    · refine List.pairwise_cons.mpr ⟨?_, pairwise_mapInsert h2⟩
      intro y hy
      rcases mem_mapInsert hy with rfl | hy
      · exact hb
      · exact h1 y hy
    · have he : k = k1 :=
        strLt_eq_of_not (Bool.of_not_eq_true ha) (Bool.of_not_eq_true hb)
      refine List.pairwise_cons.mpr ⟨?_, h2⟩
      intro y hy
      show strLt k y.1 = true
      rw [he]
      exact h1 y hy

theorem mapSet_keys (k : String) (v : Option (List Nat)) :
    ∀ m : ObjMap, (mapSet k v m).map Prod.fst = m.map Prod.fst
  | [] => rfl
  | (k1, v1) :: rest => by
    simp only [mapSet]
    split_ifs with h
    · simp
    · simp [mapSet_keys k v rest]

theorem pairwise_mapSet {k : String} {v : Option (List Nat)} {m : ObjMap}
    (hp : m.Pairwise (fun a b => strLt a.1 b.1 = true)) :
    (mapSet k v m).Pairwise (fun a b => strLt a.1 b.1 = true) := by
  have h1 : ((mapSet k v m).map Prod.fst).Pairwise (fun a b => strLt a b = true) := by
    rw [mapSet_keys]
    exact List.pairwise_map.mpr hp
  exact List.pairwise_map.mp h1

theorem lookup_mapSet_self {k : String} {v v0 : Option (List Nat)} :
    ∀ {m : ObjMap}, lookupObj k m = some v0 →
      lookupObj k (mapSet k v m) = some v
  | [], h => by simp [lookupObj] at h
  | (k1, v1) :: rest, h => by
    by_cases he : k = k1
    · subst he
      simp [lookupObj, mapSet]
    · simp only [lookupObj, mapSet, if_neg he] at h ⊢
      exact lookup_mapSet_self h

theorem stepStmt_objects_cases {st st1 : ObjState} {s : Statement}
    (h : stepStmt st s = .ok st1) :
    st1.objects = st.objects ∨
      (∃ name, st1.objects = mapInsert name none st.objects) ∨
      (∃ l v, st1.objects = mapSet l v st.objects) := by
  cases s with
  | Label l =>
    simp only [stepStmt, Except.ok.injEq] at h
    subst h; exact Or.inl rfl
  | Instruction i args =>
    simp only [stepStmt, Except.ok.injEq] at h
    subst h; exact Or.inl rfl
  | Directive dir args =>
    simp only [stepStmt] at h
    split_ifs at h with h1 h2 h3
    · split at h
      next name kind =>
        split_ifs at h with hk
        · cases h; exact Or.inr (Or.inl ⟨name, rfl⟩)
        · cases h; exact Or.inl rfl
      next => cases h; exact Or.inl rfl
    · split at h
      next data =>
        split at h
        next => cases h
        next =>
          split at h
          next => cases h; exact Or.inl rfl
          next => cases h; exact Or.inr (Or.inr ⟨_, _, rfl⟩)
          next => cases h; exact Or.inr (Or.inr ⟨_, _, rfl⟩)
      next => cases h; exact Or.inl rfl
    · split at h
      next => cases h
      next =>
        split at h
        next => cases h; exact Or.inl rfl
        next => cases h
        next => cases h; exact Or.inr (Or.inr ⟨_, _, rfl⟩)
    · cases h; exact Or.inl rfl

theorem stepStmt_pairwise {st st1 : ObjState} {s : Statement}
    (hp : st.objects.Pairwise (fun a b => strLt a.1 b.1 = true))
    (h : stepStmt st s = .ok st1) :
    st1.objects.Pairwise (fun a b => strLt a.1 b.1 = true) := by
  rcases stepStmt_objects_cases h with he | ⟨name, he⟩ | ⟨l, v, he⟩ <;> rw [he]
  · exact hp
  · exact pairwise_mapInsert hp
  · exact pairwise_mapSet hp

theorem foldStmts_pairwise : ∀ {stmts : List Statement} {st st1 : ObjState},
    st.objects.Pairwise (fun a b => strLt a.1 b.1 = true) →
    foldStmts st stmts = .ok st1 →
    st1.objects.Pairwise (fun a b => strLt a.1 b.1 = true)
  | [], st, st1, hp, h => by
    simp only [foldStmts, Except.ok.injEq] at h
    subst h; exact hp
  | s :: rest, st, st1, hp, h => by
    rw [foldStmts] at h
    cases hs : stepStmt st s with
    | error e => rw [hs] at h; cases h
    | ok st2 =>
      rw [hs] at h
      exact foldStmts_pairwise (stepStmt_pairwise hp hs) h

theorem foldStmts_append (st : ObjState) (l1 l2 : List Statement) :
    foldStmts st (l1 ++ l2) =
      match foldStmts st l1 with
      | .error e => .error e
      | .ok st1 => foldStmts st1 l2 := by
  induction l1 generalizing st with
  | nil => rfl
  | cons s rest ih =>
    simp only [List.cons_append, foldStmts]
    cases stepStmt st s with
    | error e => rfl
    | ok st1 => exact ih st1

theorem extract_eq_finalize {stmts : List Statement} {st : ObjState}
    (h : foldStmts { current_label := none, objects := [] } stmts = .ok st) :
    extract_data_objects stmts = finalizeObjects st.objects := by
  rw [extract_data_objects, h]

theorem extract_eq_error {stmts : List Statement} {e : ObjError}
    (h : foldStmts { current_label := none, objects := [] } stmts = .error e) :
    extract_data_objects stmts = .error e := by
  rw [extract_data_objects, h]

theorem finalizeObjects_error_of_mem {k : String} :
    ∀ {m : ObjMap}, (k, (none : Option (List Nat))) ∈ m →
      ∃ k1, finalizeObjects m = .error (.missingData k1) ∧
        (k1, (none : Option (List Nat))) ∈ m
  | [], h => by cases h
  | (k1, v1) :: rest, h => by
    cases v1 with
    | none => exact ⟨k1, rfl, List.mem_cons_self _ _⟩
    | some bs =>
      have hr : (k, (none : Option (List Nat))) ∈ rest := by
        rcases List.mem_cons.mp h with he | hr
        · cases he
        · exact hr
      rcases finalizeObjects_error_of_mem hr with ⟨k2, herr, hmem⟩
      refine ⟨k2, ?_, List.mem_cons_of_mem _ hmem⟩
      rw [finalizeObjects, herr]
      rfl

theorem finalizeObjects_ok_of_filled :
    ∀ {m : ObjMap}, (∀ kv ∈ m, kv.2 ≠ none) →
      ∃ l, finalizeObjects m = .ok l ∧
        l.map Prod.fst = m.map Prod.fst ∧
        ∀ k bs, (k, bs) ∈ l ↔ (k, some bs) ∈ m
  | [], _ => ⟨[], rfl, rfl, by simp⟩
  | (k1, v1) :: rest, h => by
    cases v1 with
    | none => exact absurd rfl (h (k1, none) (List.mem_cons_self _ _))
    | some bs1 =>
      rcases finalizeObjects_ok_of_filled
          (fun kv hkv => h kv (List.mem_cons_of_mem _ hkv)) with ⟨l, hok, hkeys, hmem⟩
      refine ⟨(k1, bs1) :: l, ?_, ?_, ?_⟩
      · rw [finalizeObjects, hok]; rfl
      · simp [hkeys]
      · intro k bs
        simp only [List.mem_cons, hmem k bs, Prod.mk.injEq, Option.some.injEq]

/-! ## Unescaping lemmas -/

theorem isDigit_toNat {c : Char} (h : c.isDigit = true) :
    48 ≤ c.toNat ∧ c.toNat ≤ 57 := by
  simp only [Char.isDigit, Bool.and_eq_true, decide_eq_true_eq, ge_iff_le] at h
  exact ⟨UInt32.le_toNat_of_le (by decide) h.1, UInt32.toNat_le_of_le (by decide) h.2⟩

theorem unescapeChars_octal {d1 c2 c3 : Char} {rest : List Char}
    (h : d1.isDigit = true) :
    unescapeChars ('\\' :: d1 :: c2 :: c3 :: rest) =
      (unescapeChars rest).map
        (fun r => addU8 (addU8 (subU8 (toU8 c3) 48) (mulU8 (subU8 (toU8 c2) 48) 8))
          (mulU8 (subU8 (toU8 d1) 48) 64) :: r) := by
  rw [unescapeChars]
  simp [h]

theorem unescapeChars_truncated {d1 : Char} {rest : List Char}
    (hd : d1.isDigit = true) (hlen : rest.length < 2) :
    unescapeChars ('\\' :: d1 :: rest) = none := by
  rcases rest with _ | ⟨a, _ | ⟨b, t⟩⟩
  · rw [unescapeChars.eq_def]
    simp [hd]
  · rw [unescapeChars.eq_def]
    simp [hd]
  · simp only [List.length_cons] at hlen
    omega

theorem unescapeChars_hex {rest : List Char} :
    unescapeChars ('\\' :: 'x' :: rest) = none := by
  rw [unescapeChars.eq_def]
  simp [show ('x').isDigit = false from rfl]

theorem unescapeChars_plain {c : Char} {rest : List Char} (h : c ≠ '\\') :
    unescapeChars (c :: rest) = (unescapeChars rest).map (fun r => toU8 c :: r) := by
  rw [unescapeChars.eq_def]
  simp [h]

/-! ## Further step lemmas -/

theorem encodeWordArg_eq_spec : encodeWordArg = wordBytesSpec := by
  funext a
  cases a with
  | Constant c =>
    cases c with
    | Number n =>
      have h255 : ∀ x : Nat, x &&& 255 = x % 256 := by
        intro x
        have h := Nat.and_pow_two_sub_one_eq_mod x 8
        norm_num at h
        exact h
      simp only [encodeWordArg, wordBytesSpec]
      rw [Nat.shiftRight_eq_div_pow, Nat.shiftRight_eq_div_pow,
        Nat.shiftRight_eq_div_pow]
      norm_num [h255]
    | HiDataRef s => rfl
    | LoDataRef s => rfl
  | Register r => rfl
  | RegOffset r c => rfl
  | StringLiteral l => rfl
  | Symbol s => rfl
  | Difference l r => rfl

theorem stepStmt_no_label {objs : ObjMap} {s : Statement} (h : ¬ isLabel s) :
    stepStmt { current_label := none, objects := objs } s = .error .noCurrentLabel ∨
      ∃ objs1, stepStmt { current_label := none, objects := objs } s =
        .ok { current_label := none, objects := objs1 } := by
  cases s with
  | Label l => exact absurd trivial h
  | Instruction i args => exact Or.inr ⟨objs, rfl⟩
  | Directive dir args =>
    simp only [stepStmt]
    split_ifs with h1 h2 h3
    · split
      · split_ifs with hk
        · exact Or.inr ⟨_, rfl⟩
        · exact Or.inr ⟨objs, rfl⟩
      · exact Or.inr ⟨objs, rfl⟩
    · split
      · exact Or.inl rfl
      · exact Or.inr ⟨objs, rfl⟩
    · exact Or.inl rfl
    · exact Or.inr ⟨objs, rfl⟩

theorem stepStmt_writesData_no_label {objs : ObjMap} {d : Statement}
    (hd : writesData d) :
    stepStmt { current_label := none, objects := objs } d =
      .error .noCurrentLabel := by
  cases d with
  | Label l => exact absurd hd (by simp [writesData])
  | Instruction i args => exact absurd hd (by simp [writesData])
  | Directive dir args =>
    rcases hd with rfl | ⟨hda, bs, rfl⟩
    · simp [stepStmt]
    · rcases hda with rfl | rfl <;> simp [stepStmt]

/-! ## The claims -/

/-- Claim C1 (corrected). The claim states that a second
`.type NAME, @object` directive for an already-registered name leaves the
existing entry (including any byte content it already holds) untouched.
The source instead calls `objects.insert(name.clone(), None)`
unconditionally (line 143), and `BTreeMap::insert` replaces the stored
value, so every `.type NAME, @object` directive — first or repeated —
leaves the object registered with *no* content: any previously
accumulated bytes are discarded. This theorem states the amended claim:
after stepping a `.type name, @object` directive from any state, the
object named `name` is registered and holds no content. -/
theorem type_redeclaration_resets_content (st : ObjState) (name : String) :
    (stepStmt st (objectTypeDir name)).map (fun st1 => lookupObj name st1.objects) =
      .ok (some none) := by
  simp [objectTypeDir, stepStmt, Except.map, lookup_mapInsert_self]

/-- Claim C1 counterexample. Registering `X`, filling it via `.ascii` with
the byte `0x41`, and then re-declaring `.type X, @object` does change the
accumulated content: before the re-declaration the object holds `[0x41]`,
afterwards it is reset to unfilled, and the whole run consequently aborts
with the finalization panic naming `X` instead of returning
`{X ↦ [0x41]}`. -/
theorem type_redeclaration_counterexample :
    (foldStmts { current_label := none, objects := [] }
        [objectTypeDir "X", .Label "X",
          .Directive ".ascii" [.StringLiteral [65]]]).map
      (fun st => lookupObj "X" st.objects) = .ok (some (some [65])) ∧
    (foldStmts { current_label := none, objects := [] }
        [objectTypeDir "X", .Label "X",
          .Directive ".ascii" [.StringLiteral [65]], objectTypeDir "X"]).map
      (fun st => lookupObj "X" st.objects) = .ok (some none) ∧
    extract_data_objects
        [objectTypeDir "X", .Label "X",
          .Directive ".ascii" [.StringLiteral [65]], objectTypeDir "X"] =
      .error (.missingData "X") :=
  ⟨rfl, rfl, rfl⟩

/-- Claim C2 (corrected). The claim states that a backslash followed by a
decimal digit whose next two characters are not both octal digits makes
`unescape_string` fail. In the source only a *truncated* escape fails
(the `unwrap` panics when the characters run out); when two further
characters are present they are never validated: their offsets from `'0'`
enter the wrapping `u8` arithmetic and one byte is always produced. This
theorem states the amended claim: a truncated octal escape is a terminal
failure, and a backslash-digit escape with two following characters of
any kind always produces exactly one byte. -/
theorem octal_escape_failure_behavior :
    (∀ d1 rest, d1.isDigit = true → rest.length < 2 →
      unescapeChars ('\\' :: d1 :: rest) = none) ∧
    (∀ d1 c2 c3 rest, d1.isDigit = true →
      ∃ b, b < 256 ∧
        unescapeChars ('\\' :: d1 :: c2 :: c3 :: rest) =
          (unescapeChars rest).map (fun r => b :: r)) := by
  constructor
  · intro d1 rest hd hlen
    exact unescapeChars_truncated hd hlen
  · intro d1 c2 c3 rest hd
    refine ⟨addU8 (addU8 (subU8 (toU8 c3) 48) (mulU8 (subU8 (toU8 c2) 48) 8))
      (mulU8 (subU8 (toU8 d1) 48) 64), ?_, unescapeChars_octal hd⟩
    simp only [addU8]
    exact Nat.mod_lt _ (by norm_num)

/-- Claim C2 witness: the truncated escape `"\1"` fails, and the escape
`\108` (with the non-octal digit `8`) produces one byte. -/
theorem octal_escape_failure_witness :
    unescapeChars ['\\', '1'] = none ∧
    ∃ b, b < 256 ∧ unescapeChars ['\\', '1', '0', '8'] =
      (unescapeChars []).map (fun r => b :: r) :=
  ⟨octal_escape_failure_behavior.1 '1' [] rfl (by norm_num),
    octal_escape_failure_behavior.2 '1' '0' '8' [] rfl⟩

/-- Claim C2 counterexample. The input `"\108"` has a backslash followed
by the decimal digit `1`, and the following two characters `0`, `8` are
not both octal digits; the claim says `unescape_string` must fail, but it
succeeds, returning the single byte `8 + 0*8 + 1*64 = 72`. -/
theorem octal_escape_counterexample :
    unescape_string "\"\\108\"" = some [72] ∧
    unescape_string "\"\\108\"" ≠ none :=
  ⟨rfl, by intro h; rw [show unescape_string "\"\\108\"" = some [72] from rfl] at h; cases h⟩

/-- Claim C3 (confirmed). `extract_label_references` collects names only
from `Instruction` arguments — a name is in the result exactly when some
instruction in the sequence has an argument mentioning it under the
per-argument rule (`Register`/`StringLiteral` nothing, `Symbol` its name,
`RegOffset`/`Constant` a name exactly for `HiDataRef`/`LoDataRef`) — and
on a `.word foo` directive plus a `jal bar` instruction it returns
exactly the singleton set containing `bar`. -/
theorem references_from_instruction_args_only :
    (∀ stmts l, extract_label_references stmts = some l →
      ∀ name, (name ∈ l ↔ ∃ i args, Statement.Instruction i args ∈ stmts ∧
        ∃ arg ∈ args, argMentions name arg)) ∧
    extract_label_references
        [.Directive ".word" [.Symbol "foo"], .Instruction "jal" [.Symbol "bar"]] =
      some ["bar"] :=
  ⟨fun _ _ h _ => extract_label_references_mem h, rfl⟩

/-- Claim C3 witness: the membership characterization applied to the
spec's own example. -/
theorem references_witness :
    "bar" ∈ ["bar"] ↔ ∃ i args,
      Statement.Instruction i args ∈
        [Statement.Directive ".word" [Argument.Symbol "foo"],
          Statement.Instruction "jal" [Argument.Symbol "bar"]] ∧
      ∃ arg ∈ args, argMentions "bar" arg :=
  references_from_instruction_args_only.1
    [Statement.Directive ".word" [Argument.Symbol "foo"],
      Statement.Instruction "jal" [Argument.Symbol "bar"]] ["bar"] rfl "bar"

/-- Claim C4 (confirmed). A `.word` directive whose current label names a
registered still-empty object sets that object's content to the
concatenation, in argument order, of each argument's encoding — four
little-endian bytes of the number truncated to 32 bits for a `Number`
constant, four zero bytes for anything else — and `.word 1` produces
`[0x01, 0x00, 0x00, 0x00]`. -/
theorem word_fills_empty_object :
    (∀ st l args, st.current_label = some l →
      lookupObj l st.objects = some none →
      (stepStmt st (.Directive ".word" args)).map
          (fun st1 => lookupObj l st1.objects) =
        .ok (some (some (args.flatMap wordBytesSpec)))) ∧
    extract_data_objects [objectTypeDir "X", .Label "X",
        .Directive ".word" [.Constant (.Number 1)]] =
      .ok [("X", [1, 0, 0, 0])] := by
  constructor
  · intro st l args hcl hlk
    have hstep : stepStmt st (.Directive ".word" args) =
        .ok { st with
              objects := mapSet l (some (args.flatMap encodeWordArg)) st.objects } := by
      simp [stepStmt, hcl, hlk]
    rw [hstep, encodeWordArg_eq_spec]
    simp only [Except.map]
    rw [lookup_mapSet_self hlk]
  · rfl

/-- Claim C4 witness: filling the empty registered object `X` with
`.word 5`. -/
theorem word_fills_witness :
    (stepStmt { current_label := some "X", objects := [("X", none)] }
        (.Directive ".word" [.Constant (.Number 5)])).map
      (fun st1 => lookupObj "X" st1.objects) =
      .ok (some (some ([Argument.Constant (Constant.Number 5)].flatMap wordBytesSpec))) :=
  word_fills_empty_object.1 _ "X" _ rfl rfl

/-- Claim C5 (corrected). The claim states that `\d₁d₂d₃` (decimal `d₁`,
octal `d₂`, `d₃`) decodes to the single byte `d₁*64 + d₂*8 + d₃`. The
source computes that value in wrapping `u8` arithmetic, so the byte is
`(d₁*64 + d₂*8 + d₃) mod 256` — which equals the claimed value only when
it fits in a byte (`d₁ ≤ 3`), while for example `\400` yields `0`, not
`256`. This theorem states the amended claim: the produced byte is the
value reduced mod 256; `\101` decodes to `0x41`; and a non-escaped
character below 256 passes through as its own byte. -/
theorem octal_escape_value :
    (∀ d1 c2 c3 rest, d1.isDigit = true → isOctal c2 → isOctal c3 →
      unescapeChars ('\\' :: d1 :: c2 :: c3 :: rest) =
        (unescapeChars rest).map
          (fun r => ((d1.toNat - 48) * 64 + (c2.toNat - 48) * 8 +
            (c3.toNat - 48)) % 256 :: r)) ∧
    unescape_string "\"\\101\"" = some [65] ∧
    (∀ c rest, c ≠ '\\' → c.toNat < 256 →
      unescapeChars (c :: rest) = (unescapeChars rest).map (fun r => c.toNat :: r)) := by
  refine ⟨?_, rfl, ?_⟩
  · intro d1 c2 c3 rest hd h2 h3
    rw [unescapeChars_octal hd]
    have hb1 := isDigit_toNat hd
    rcases h2 with ⟨h2a, h2b⟩
    rcases h3 with ⟨h3a, h3b⟩
    congr 1
    funext r
    congr 1
    simp only [addU8, mulU8, subU8, toU8]
    omega
  · intro c rest hc hlt
    rw [unescapeChars_plain hc]
    simp [toU8, Nat.mod_eq_of_lt hlt]

/-- Claim C5 witness: the octal rule applied to `\101`, and the plain
character `a`. -/
theorem octal_escape_value_witness :
    unescapeChars ['\\', '1', '0', '1'] =
      (unescapeChars []).map
        (fun r => ((('1').toNat - 48) * 64 + (('0').toNat - 48) * 8 +
          (('1').toNat - 48)) % 256 :: r) ∧
    unescapeChars ['a'] = (unescapeChars []).map (fun r => ('a').toNat :: r) :=
  ⟨octal_escape_value.1 '1' '0' '1' [] rfl (by constructor <;> decide)
      (by constructor <;> decide),
    octal_escape_value.2.2 'a' [] (by decide) (by decide)⟩

/-- Claim C5 counterexample. For `\400` the claimed byte would be
`4*64 + 0*8 + 0 = 256`, but the wrapping `u8` arithmetic of the source
produces the byte `0`. -/
theorem octal_escape_value_counterexample :
    unescape_string "\"\\400\"" = some [0] ∧
    unescape_string "\"\\400\"" ≠ some [4 * 64 + 0 * 8 + 0] := by
  refine ⟨rfl, ?_⟩
  intro h
  rw [show unescape_string "\"\\400\"" = some [0] from rfl] at h
  simp at h

/-- Claim C6 (confirmed). Under a current label, an `.ascii` or `.asciz`
directive with a single string literal does nothing when the label names
no registered object, initializes a still-empty registered object with
the literal's bytes, and appends the bytes to already-present content;
the two-directive example accumulates `AB` then `C` into `[0x41, 0x42,
0x43]`. -/
theorem ascii_appends_in_order :
    (∀ dir st l data, (dir = ".ascii" ∨ dir = ".asciz") →
      st.current_label = some l →
      (lookupObj l st.objects = none →
        stepStmt st (.Directive dir [.StringLiteral data]) = .ok st) ∧
      (lookupObj l st.objects = some none →
        (stepStmt st (.Directive dir [.StringLiteral data])).map
          (fun st1 => lookupObj l st1.objects) = .ok (some (some data))) ∧
      (∀ d, lookupObj l st.objects = some (some d) →
        (stepStmt st (.Directive dir [.StringLiteral data])).map
          (fun st1 => lookupObj l st1.objects) = .ok (some (some (d ++ data))))) ∧
    extract_data_objects [objectTypeDir "X", .Label "X",
        .Directive ".ascii" [.StringLiteral [65, 66]],
        .Directive ".ascii" [.StringLiteral [67]]] =
      .ok [("X", [65, 66, 67])] := by
  constructor
  · intro dir st l data hdir hcl
    refine ⟨?_, ?_, ?_⟩
    · intro hlk
      rcases hdir with rfl | rfl <;> simp [stepStmt, hcl, hlk]
    · intro hlk
      rcases hdir with rfl | rfl <;>
        simp [stepStmt, hcl, hlk, Except.map, lookup_mapSet_self hlk]
    · intro d hlk
      rcases hdir with rfl | rfl <;>
        simp [stepStmt, hcl, hlk, Except.map, lookup_mapSet_self hlk]
  · rfl

/-- Claim C6 witness: appending `C` to an object already holding `AB`,
and the no-registered-object case. -/
theorem ascii_appends_witness :
    (stepStmt { current_label := some "X", objects := [("X", some [65, 66])] }
        (.Directive ".ascii" [.StringLiteral [67]])).map
      (fun st1 => lookupObj "X" st1.objects) = .ok (some (some ([65, 66] ++ [67]))) ∧
    stepStmt { current_label := some "Y", objects := [] }
        (.Directive ".asciz" [.StringLiteral [1]]) =
      .ok { current_label := some "Y", objects := [] } :=
  ⟨(ascii_appends_in_order.1 ".ascii" _ "X" [67] (Or.inl rfl) rfl).2.2 [65, 66] rfl,
    (ascii_appends_in_order.1 ".asciz" _ "Y" [1] (Or.inr rfl) rfl).1 rfl⟩

/-- Claim C7 (confirmed). Whenever the fold reaches a state whose current
label names a registered object that already holds (non-empty) content,
a following `.word` directive — with any arguments — trips the
`assert!(entry.is_none())` and the whole run fails, whatever statements
follow. -/
theorem duplicate_word_fails (pre post : List Statement)
    (args : List Argument) (st : ObjState) (l : String) (bs : List Nat)
    (hf : foldStmts { current_label := none, objects := [] } pre = .ok st)
    (hcl : st.current_label = some l)
    (hlk : lookupObj l st.objects = some (some bs)) (_hbs : bs ≠ []) :
    extract_data_objects (pre ++ .Directive ".word" args :: post) =
      .error .duplicateWord := by
  have hstep : stepStmt st (.Directive ".word" args) = .error .duplicateWord := by
    simp [stepStmt, hcl, hlk]
  have hfold : foldStmts { current_label := none, objects := [] }
      (pre ++ .Directive ".word" args :: post) = .error .duplicateWord := by
    rw [foldStmts_append, hf]
    simp only [foldStmts, hstep]
  exact extract_eq_error hfold

/-- Claim C7 witness: a second `.word` for the already-filled object `X`
aborts the run. -/
theorem duplicate_word_witness :
    extract_data_objects
        [objectTypeDir "X", .Label "X", .Directive ".word" [.Constant (.Number 1)],
          .Directive ".word" [.Constant (.Number 2)]] =
      .error .duplicateWord :=
  duplicate_word_fails
    [objectTypeDir "X", .Label "X", .Directive ".word" [.Constant (.Number 1)]]
    [] [.Constant (.Number 2)]
    { current_label := some "X", objects := [("X", some [1, 0, 0, 0])] }
    "X" [1, 0, 0, 0] rfl rfl rfl (by simp)

/-- Claim C8 (confirmed). At finalization, if some object was registered
but never received content the run fails with an error naming such an
object; if every registered object has content the result is the
name-ordered map from object name to its byte buffer. -/
theorem finalization_requires_content (stmts : List Statement) (st : ObjState)
    (hf : foldStmts { current_label := none, objects := [] } stmts = .ok st) :
    ((∃ k, (k, (none : Option (List Nat))) ∈ st.objects) →
      ∃ k1, extract_data_objects stmts = .error (.missingData k1) ∧
        (k1, (none : Option (List Nat))) ∈ st.objects) ∧
    ((∀ kv ∈ st.objects, kv.2 ≠ none) →
      ∃ l, extract_data_objects stmts = .ok l ∧
        (l.map Prod.fst).Pairwise (fun a b => strLt a b = true) ∧
        ∀ k bs, (k, bs) ∈ l ↔ (k, some bs) ∈ st.objects) := by
  constructor
  · rintro ⟨k, hk⟩
    rcases finalizeObjects_error_of_mem hk with ⟨k1, herr, hmem⟩
    exact ⟨k1, by rw [extract_eq_finalize hf, herr], hmem⟩
  · intro hall
    rcases finalizeObjects_ok_of_filled hall with ⟨l, hok, hkeys, hmem⟩
    have hsorted : st.objects.Pairwise (fun a b => strLt a.1 b.1 = true) :=
      foldStmts_pairwise (by simp) hf
    refine ⟨l, by rw [extract_eq_finalize hf, hok], ?_, hmem⟩
    rw [hkeys]
    exact List.pairwise_map.mpr hsorted

/-- Claim C8 witness: `.type Y, @object` alone fails naming the unfilled
object, and a filled run returns its ordered map. -/
theorem finalization_witness :
    (∃ k1, extract_data_objects [objectTypeDir "Y"] = .error (.missingData k1) ∧
      (k1, (none : Option (List Nat))) ∈ [("Y", (none : Option (List Nat)))]) ∧
    (∃ l, extract_data_objects
        [objectTypeDir "Y", .Label "Y", .Directive ".word" [.Constant (.Number 1)]] =
          .ok l ∧
      (l.map Prod.fst).Pairwise (fun a b => strLt a b = true) ∧
      ∀ k bs, (k, bs) ∈ l ↔
        (k, some bs) ∈ [("Y", (some [1, 0, 0, 0] : Option (List Nat)))]) :=
  ⟨(finalization_requires_content [objectTypeDir "Y"]
      { current_label := none, objects := [("Y", none)] } rfl).1 ⟨"Y", by simp⟩,
    (finalization_requires_content
      [objectTypeDir "Y", .Label "Y", .Directive ".word" [.Constant (.Number 1)]]
      { current_label := some "Y", objects := [("Y", some [1, 0, 0, 0])] } rfl).2
      (by simp)⟩

/-- Claim C9 (confirmed). The two unimplemented constructs fail fatally:
any `Difference` argument of any instruction makes
`extract_label_references` fail (no two-symbol extraction), and a
backslash-`x` escape makes `unescape_string` fail. -/
theorem unimplemented_constructs_fail :
    (∀ stmts i args l r, Statement.Instruction i args ∈ stmts →
      Argument.Difference l r ∈ args →
      extract_label_references stmts = none) ∧
    (∀ rest, unescapeChars ('\\' :: 'x' :: rest) = none) ∧
    unescape_string "\"\\x41\"" = none := by
  refine ⟨?_, ?_, rfl⟩
  · intro stmts i args l r hs ha
    simp [extract_label_references, allRefs_eq_none hs ha]
  · intro rest
    exact unescapeChars_hex

/-- Claim C9 witness: a `beq` instruction with a `Difference` argument
makes reference extraction fail. -/
theorem unimplemented_constructs_witness :
    extract_label_references [.Instruction "beq" [.Difference "a" "b"]] = none :=
  unimplemented_constructs_fail.1 _ "beq" [.Difference "a" "b"] "a" "b"
    (by simp) (by simp)

/-- Claim C10 (confirmed). An `.ascii`/`.asciz` (with a single string
literal) or `.word` directive reached before any `Label` statement makes
`extract_data_objects` fail — the absent current label is unwrapped — for
every prefix of label-free statements and whatever follows. -/
theorem data_directive_before_label_panics (pre : List Statement)
    (d : Statement) (rest : List Statement)
    (hpre : ∀ s ∈ pre, ¬ isLabel s) (hd : writesData d) :
    extract_data_objects (pre ++ d :: rest) = .error .noCurrentLabel := by
  have key : ∀ pre1 : List Statement, (∀ s ∈ pre1, ¬ isLabel s) → ∀ objs : ObjMap,
      foldStmts { current_label := none, objects := objs } (pre1 ++ d :: rest) =
        .error .noCurrentLabel := by
    intro pre1
    induction pre1 with
    | nil =>
      intro _ objs
      simp only [List.nil_append, foldStmts, stepStmt_writesData_no_label hd]
    | cons s pre2 ih =>
      intro hpre1 objs
      simp only [List.cons_append, foldStmts]
      rcases stepStmt_no_label (hpre1 s (List.mem_cons_self _ _)) with he | ⟨objs1, he⟩
      · rw [he]
      · rw [he]
        exact ih (fun t ht => hpre1 t (List.mem_cons_of_mem _ ht)) objs1
  exact extract_eq_error (key pre hpre [])

/-- Claim C10 witness: a lone `.word` directive with no preceding label
panics instead of being a no-op. -/
theorem data_directive_before_label_witness :
    extract_data_objects [Statement.Directive ".word" []] =
      .error .noCurrentLabel :=
  data_directive_before_label_panics [] (.Directive ".word" []) []
    (by simp) (Or.inl rfl)

end RiscvParser

